import Mathlib

/-!
# Verification of the disseminate build engine

A shallow embedding, in Lean 4, of the core algorithms of the
`disseminate` document-generation engine:

* the converter registry and selection algorithm
  (`src/disseminate/convert/converter.py`);
* the sequential composite builder — stage chaining and status rollup
  (`src/disseminate/builders/composite_builders/sequential_builder.py`);
* the atomic builder with its hash-based rebuild decider and its shell-free
  command-argument substitution (modelled from the specification, since the
  `builders/builder.py` module and the decider module are not part of the
  source tree given here — only their tests are).

Statuses are kept as the literal strings the Python code uses
(`"done"`, `"building"`, `"ready"`, ...).
-/

namespace Disseminate

/-! ## Converter registry and selection

Embedding of `disseminate/convert/converter.py`.  A converter subclass is
reduced to its class-level descriptor: `from_formats`, `to_formats`,
`order` and `required_execs`.  The registration order of `_all_subclasses`
is the order of the `registry` list; Python's stable `sorted(... key=order)`
is embedded as `List.insertionSort` on `order`, which is the (unique) stable
sort by that key.
-/

/-- Descriptor of a `Converter` subclass: the class attributes used by
`Converter.get_converter`. -/
structure ConvDesc where
  from_formats : List String
  to_formats : List String
  order : Nat
  required_execs : List String
deriving DecidableEq, Repr

/-- Embedding of `Converter.is_available`: every required executable resolves on the
host.  `present` is the set of executables `find_executable` can resolve. -/
def is_available (present : List String) (c : ConvDesc) : Bool :=
  c.required_execs.all (fun e => present.contains e)

/-- Embedding of `cls._converters`: all registered subclasses, stably sorted by `order`
(`sorted(_all_subclasses(cls), key=lambda s: s.order)`). -/
def sortedConverters (registry : List ConvDesc) : List ConvDesc :=
  List.insertionSort (fun a b => a.order ≤ b.order) registry

/-- The per-target comprehension filter of `get_converter`:
`from_format in c.from_formats and target in c.to_formats`. -/
def matchesConv (from_format target : String) (c : ConvDesc) : Bool :=
  c.from_formats.contains from_format && c.to_formats.contains target

/-- Embedding of `valid_converters`: for each target in caller-preference order, the
sorted converters that handle `(from_format, target)`. -/
def validConverters (registry : List ConvDesc) (from_format : String)
    (targets : List String) : List ConvDesc :=
  targets.flatMap
    (fun target => (sortedConverters registry).filter (matchesConv from_format target))

/-- Embedding of `available_converters`: the valid converters whose required executables
are all present. -/
def availableConverters (registry : List ConvDesc) (present : List String)
    (from_format : String) (targets : List String) : List ConvDesc :=
  (validConverters registry from_format targets).filter (is_available present)

/-- The final selection loop of `get_converter`: walk `targets` in order and,
at the first target some available converter can produce, return the first
such converter of the `available_converters` list (`converters[0]`). -/
def pickBest (avail : List ConvDesc) : List String → Option (ConvDesc × String)
  | [] => none
  | target :: rest =>
    match avail.filter (fun c => c.to_formats.contains target) with
    | [] => pickBest avail rest
    | c :: _ => some (c, target)

/-- Result of `Converter.get_converter`.  The two error branches both raise
`ConverterError` in Python; they are distinguished here by the data their
message carries: `noConverter` names the attempted targets, `missingExec`
carries the `required_execs` lists of all otherwise-eligible converters
(joined into the message string by the code). -/
inductive GetConvResult where
  | ok (c : ConvDesc) (target : String)
  | noConverter (targets : List String)
  | missingExec (execs : List String)
deriving DecidableEq, Repr

/-- Embedding of `Converter.get_converter(src_filepath, target_basefilepath, targets)`,
with the source format already extracted from `src_filepath.suffix`. -/
def get_converter (registry : List ConvDesc) (present : List String)
    (from_format : String) (targets : List String) : GetConvResult :=
  let valid := validConverters registry from_format targets
  if valid.isEmpty then
    .noConverter targets
  else
    let avail := valid.filter (is_available present)
    if avail.isEmpty then
      .missingExec ((valid.map (fun c => c.required_execs)).flatten)
    else
      match pickBest avail targets with
      | some (c, target) => .ok c target
      | none => .noConverter targets

/-! ### Spec-side description of converter selection

The specification (§4.3 step 5) describes the winner as: walk the target
candidates in caller-preference order; at the first format with at least one
available converter, pick the available converter with the lowest `order`,
ties broken by registration order.  The following definitions state exactly
that, directly over the registration-ordered registry, to be compared with
the embedding of the code above. -/

/-- A converter is an *available match* for `(from_format, target)` when it
handles the pair and all its required executables are present. -/
def availMatch (present : List String) (from_format target : String)
    (c : ConvDesc) : Bool :=
  matchesConv from_format target c && is_available present c

/-- The element with the lowest `order`, earliest in the list among ties:
the spec's "lowest `order` value (ties broken by registration order)". -/
def firstMinByOrder : List ConvDesc → Option ConvDesc
  | [] => none
  | c :: cs =>
    match firstMinByOrder cs with
    | none => some c
    | some b => if c.order ≤ b.order then some c else some b

/-! ### Lemmas about the stable sort and the selection walk -/

/-- The head of a filtered list is given by `find?`. -/
lemma head?_filter_eq_find? {α} (p : α → Bool) (l : List α) :
    (l.filter p).head? = l.find? p := by
  induction l with
  | nil => rfl
  | cons a l ih =>
    cases hp : p a <;> simp [List.filter_cons, List.find?_cons, hp, ih]

/-- Filtering distributes over `flatMap`. -/
lemma filter_flatMap_comm {α β} (l : List α) (f : α → List β) (p : β → Bool) :
    (l.flatMap f).filter p = l.flatMap fun a => (f a).filter p := by
  induction l with
  | nil => rfl
  | cons a l ih => simp [List.flatMap_cons, List.filter_append, ih]

instance : IsTrans ConvDesc (fun a b => a.order ≤ b.order) :=
  ⟨fun _ _ _ hab hbc => le_trans hab hbc⟩

instance : IsTotal ConvDesc (fun a b => a.order ≤ b.order) :=
  ⟨fun a b => Nat.le_total a.order b.order⟩

/-- Computing `find?` over an ordered insertion, on a list sorted by `order`: the
inserted element wins exactly when it satisfies the predicate and its order
is at most that of the previously found element. -/
lemma find?_orderedInsert (P : ConvDesc → Bool) (c : ConvDesc)
    (s : List ConvDesc)
    (hs : List.Sorted (fun a b => a.order ≤ b.order) s) :
    (List.orderedInsert (fun a b => a.order ≤ b.order) c s).find? P =
      match s.find? P with
      | none => if P c then some c else none
      | some b => if P c ∧ c.order ≤ b.order then some c else some b := by
  induction s with
  | nil =>
    cases hPc : P c <;> simp [List.orderedInsert, List.find?_cons, hPc]
  | cons d ds ih =>
    rw [List.orderedInsert]
    by_cases hcd : c.order ≤ d.order
    · rw [if_pos hcd]
      cases hPc : P c
      · rw [List.find?_cons_of_neg _ (by simp [hPc])]
        cases h : (d :: ds).find? P <;> simp [h, hPc]
      · rw [List.find?_cons_of_pos _ hPc]
        cases h : (d :: ds).find? P with
        | none => simp [hPc]
        | some b =>
          have hb : b ∈ d :: ds := List.mem_of_find?_eq_some h
          have hdb : d.order ≤ b.order := by
            rcases List.mem_cons.mp hb with hbd | hb
            · exact hbd ▸ le_refl _
            · exact List.rel_of_sorted_cons hs b hb
          simp [hPc, le_trans hcd hdb]
    · rw [if_neg hcd]
      cases hPd : P d
      · rw [List.find?_cons_of_neg _ (by simp [hPd]),
            List.find?_cons_of_neg _ (by simp [hPd])]
        exact ih hs.of_cons
      · rw [List.find?_cons_of_pos _ hPd, List.find?_cons_of_pos _ hPd]
        have : ¬(P c = true ∧ c.order ≤ d.order) := fun h => hcd h.2
        simp [this]

/-- Computing `find?` over the stably sorted converter list equals the
lowest-order-first-registered choice over the raw registry. -/
lemma find?_sortedConverters (P : ConvDesc → Bool) (l : List ConvDesc) :
    (sortedConverters l).find? P = firstMinByOrder (l.filter P) := by
  induction l with
  | nil => rfl
  | cons c cs ih =>
    have hsorted : List.Sorted (fun a b : ConvDesc => a.order ≤ b.order)
        (sortedConverters cs) := by
      apply List.sorted_insertionSort
    have hstep : sortedConverters (c :: cs) =
        List.orderedInsert (fun a b => a.order ≤ b.order) c
          (sortedConverters cs) := rfl
    rw [hstep, find?_orderedInsert P c _ hsorted, ih]
    cases hPc : P c <;>
      cases h : firstMinByOrder (cs.filter P) <;>
        simp [List.filter_cons, firstMinByOrder, hPc, h]

lemma firstMinByOrder_cons_none (c : ConvDesc) (cs : List ConvDesc)
    (h : firstMinByOrder cs = none) : firstMinByOrder (c :: cs) = some c := by
  rw [firstMinByOrder, h]

lemma firstMinByOrder_cons_some (c : ConvDesc) (cs : List ConvDesc)
    (b : ConvDesc) (h : firstMinByOrder cs = some b) :
    firstMinByOrder (c :: cs) =
      if c.order ≤ b.order then some c else some b := by
  rw [firstMinByOrder, h]

lemma firstMinByOrder_ne_none (c : ConvDesc) (cs : List ConvDesc) :
    firstMinByOrder (c :: cs) ≠ none := by
  cases h : firstMinByOrder cs with
  | none => rw [firstMinByOrder_cons_none _ _ h]; simp
  | some b => rw [firstMinByOrder_cons_some _ _ _ h]; split <;> simp

/-- What `firstMinByOrder` over a filtered list yields: an element that
satisfies the predicate and has minimal `order` among those that do. -/
lemma firstMinFilter_min (P : ConvDesc → Bool) (l : List ConvDesc)
    (c : ConvDesc) (h : firstMinByOrder (l.filter P) = some c) :
    P c = true ∧ ∀ d ∈ l, P d = true → c.order ≤ d.order := by
  induction l generalizing c with
  | nil => simp [firstMinByOrder] at h
  | cons a l ih =>
    rw [List.filter_cons] at h
    by_cases hPa : P a = true
    · rw [if_pos hPa] at h
      cases hrec : firstMinByOrder (l.filter P) with
      | none =>
        rw [firstMinByOrder_cons_none _ _ hrec] at h
        cases h
        refine ⟨hPa, fun d hd hPd => ?_⟩
        rcases List.mem_cons.mp hd with rfl | hd
        · exact le_refl _
        · -- if some d in l satisfied P, firstMinByOrder of the filter
          -- could not be none
          exfalso
          have hdf : d ∈ l.filter P := List.mem_filter.mpr ⟨hd, hPd⟩
          cases hfil : l.filter P with
          | nil => rw [hfil] at hdf; exact absurd hdf (List.not_mem_nil d)
          | cons x xs =>
            rw [hfil] at hrec
            exact firstMinByOrder_ne_none x xs hrec
      | some b =>
        rw [firstMinByOrder_cons_some _ _ _ hrec] at h
        obtain ⟨hPb, hbmin⟩ := ih b hrec
        by_cases hab : a.order ≤ b.order
        · rw [if_pos hab] at h
          cases h
          refine ⟨hPa, fun d hd hPd => ?_⟩
          rcases List.mem_cons.mp hd with rfl | hd
          · exact le_refl _
          · exact le_trans hab (hbmin d hd hPd)
        · rw [if_neg hab] at h
          cases h
          refine ⟨hPb, fun d hd hPd => ?_⟩
          rcases List.mem_cons.mp hd with rfl | hd
          · exact le_of_not_le hab
          · exact hbmin d hd hPd
    · rw [if_neg hPa] at h
      obtain ⟨hPc, hmin⟩ := ih c h
      refine ⟨hPc, fun d hd hPd => ?_⟩
      rcases List.mem_cons.mp hd with rfl | hd
      · exact absurd hPd hPa
      · exact hmin d hd hPd

/-- Over a filtered list, `firstMinByOrder` picks the *earliest* element of
the original list among the predicate-satisfying elements of minimal order:
every predicate-satisfying element strictly before it has strictly larger
`order`. -/
lemma firstMinFilter_first (P : ConvDesc → Bool) (l : List ConvDesc)
    (c : ConvDesc) (h : firstMinByOrder (l.filter P) = some c) :
    ∃ l1 l2, l = l1 ++ c :: l2 ∧
      ∀ d ∈ l1, P d = true → c.order < d.order := by
  induction l generalizing c with
  | nil => simp [firstMinByOrder] at h
  | cons a l ih =>
    rw [List.filter_cons] at h
    by_cases hPa : P a = true
    · rw [if_pos hPa] at h
      cases hrec : firstMinByOrder (l.filter P) with
      | none =>
        rw [firstMinByOrder_cons_none _ _ hrec] at h
        cases h
        exact ⟨[], l, rfl, by simp⟩
      | some b =>
        rw [firstMinByOrder_cons_some _ _ _ hrec] at h
        by_cases hab : a.order ≤ b.order
        · rw [if_pos hab] at h
          cases h
          exact ⟨[], l, rfl, by simp⟩
        · rw [if_neg hab] at h
          cases h
          obtain ⟨l1, l2, rfl, hl1⟩ := ih c hrec
          refine ⟨a :: l1, l2, rfl, fun d hd hPd => ?_⟩
          rcases List.mem_cons.mp hd with rfl | hd
          · exact lt_of_not_le hab
          · exact hl1 d hd hPd
    · rw [if_neg hPa] at h
      obtain ⟨l1, l2, rfl, hl1⟩ := ih c h
      refine ⟨a :: l1, l2, rfl, fun d hd hPd => ?_⟩
      rcases List.mem_cons.mp hd with rfl | hd
      · exact absurd hPd hPa
      · exact hl1 d hd hPd

/-- The selection loop returns the head of the filtered available list at
the first target whose filtered available list is non-empty. -/
lemma pickBest_eq_some (avail : List ConvDesc) (ts : List String)
    (c : ConvDesc) (t : String) (h : pickBest avail ts = some (c, t)) :
    ∃ pre post, ts = pre ++ t :: post ∧
      (∀ u ∈ pre, avail.filter (fun d => d.to_formats.contains u) = []) ∧
      (avail.filter (fun d => d.to_formats.contains t)).head? = some c := by
  induction ts with
  | nil => simp [pickBest] at h
  | cons u rest ih =>
    rw [pickBest] at h
    cases hf : avail.filter (fun d => d.to_formats.contains u) with
    | nil =>
      rw [hf] at h
      obtain ⟨pre, post, rfl, hpre, hhead⟩ := ih h
      refine ⟨u :: pre, post, rfl, fun v hv => ?_, hhead⟩
      rcases List.mem_cons.mp hv with rfl | hv
      · exact hf
      · exact hpre v hv
    | cons c0 cs =>
      rw [hf] at h
      cases h
      exact ⟨[], rest, rfl, by simp, by rw [hf]; rfl⟩

lemma mem_sortedConverters {c : ConvDesc} {l : List ConvDesc} :
    c ∈ sortedConverters l ↔ c ∈ l :=
  (List.perm_insertionSort _ l).mem_iff

lemma filter_sorted_eq_nil {registry : List ConvDesc} {q : ConvDesc → Bool}
    (h : ∀ d ∈ registry, q d = false) :
    (sortedConverters registry).filter q = [] :=
  List.filter_eq_nil_iff.mpr
    (fun d hd => by rw [h d (mem_sortedConverters.mp hd)]; simp)

/-- The per-target block predicate that falls out of commuting the
availability and target filters into the valid-converter blocks. -/
def blockPred (present : List String) (ff u t : String) (c : ConvDesc) : Bool :=
  c.to_formats.contains t && is_available present c && matchesConv ff u c

lemma blockPred_availMatch {present : List String} {ff u t : String}
    {c : ConvDesc} (h : blockPred present ff u t c = true) :
    availMatch present ff t c = true := by
  rw [blockPred] at h
  rw [Bool.and_eq_true, Bool.and_eq_true] at h
  obtain ⟨⟨hto, hav⟩, hmc⟩ := h
  rw [matchesConv, Bool.and_eq_true] at hmc
  rw [availMatch, matchesConv]
  rw [Bool.and_eq_true, Bool.and_eq_true]
  exact ⟨⟨hmc.1, hto⟩, hav⟩

/-- The core block analysis behind converter selection: filtering the
available converters down to a target `t` that is preceded only by targets
with no available match yields, as head, exactly the `find?` of the stably
sorted registry for the available-match predicate at `t`. -/
lemma availConverters_filter_head (registry : List ConvDesc)
    (present : List String) (ff : String) (pre post : List String)
    (t : String)
    (hpre : ∀ u ∈ pre, ∀ d ∈ registry, availMatch present ff u d = false) :
    ((availableConverters registry present ff (pre ++ t :: post)).filter
        (fun d => d.to_formats.contains t)).head? =
      (sortedConverters registry).find? (availMatch present ff t) := by
  -- rewrite the filtered available list as a flatMap of per-target blocks
  have hA : (availableConverters registry present ff (pre ++ t :: post)).filter
      (fun d => d.to_formats.contains t) =
      (pre ++ t :: post).flatMap
        (fun u => (sortedConverters registry).filter (blockPred present ff u t)) := by
    rw [availableConverters, validConverters, filter_flatMap_comm,
        filter_flatMap_comm]
    congr 1
    funext u
    rw [List.filter_filter, List.filter_filter]
    rfl
  -- each block of a target with no available match at `u` is empty
  have hblock_nil : ∀ u, (∀ d ∈ registry, availMatch present ff u d = false) →
      (sortedConverters registry).filter (blockPred present ff u t) = [] := by
    intro u hu
    apply filter_sorted_eq_nil
    intro d hd
    by_contra hq
    rw [Bool.not_eq_false, blockPred] at hq
    rw [Bool.and_eq_true, Bool.and_eq_true] at hq
    have : availMatch present ff u d = true := by
      rw [availMatch]
      rw [Bool.and_eq_true]
      exact ⟨hq.2, hq.1.2⟩
    rw [hu d hd] at this
    cases this
  have hprenil : pre.flatMap
      (fun u => (sortedConverters registry).filter (blockPred present ff u t)) = [] :=
    List.flatMap_eq_nil_iff.mpr (fun u hu => hblock_nil u (hpre u hu))
  -- the block at `t` itself is the filter by the available-match predicate
  have hBt : (sortedConverters registry).filter (blockPred present ff t t) =
      (sortedConverters registry).filter (availMatch present ff t) := by
    apply List.filter_congr
    intro c _
    rw [blockPred, availMatch, matchesConv]
    cases h1 : c.from_formats.contains ff <;>
      cases h2 : c.to_formats.contains t <;>
        cases h3 : is_available present c <;> simp [h1, h2, h3]
  rw [hA, List.flatMap_append, List.flatMap_cons, hprenil, hBt]
  rw [← head?_filter_eq_find?]
  cases hbt : (sortedConverters registry).filter (availMatch present ff t) with
  | cons c0 cs => simp [hbt]
  | nil =>
    -- no available converter matches t at all, so the later blocks are
    -- empty as well
    have hnomatch : ∀ d ∈ registry, availMatch present ff t d = false := by
      intro d hd
      by_contra hq
      rw [Bool.not_eq_false] at hq
      have hdmem : d ∈ (sortedConverters registry).filter
          (availMatch present ff t) :=
        List.mem_filter.mpr ⟨mem_sortedConverters.mpr hd, hq⟩
      rw [hbt] at hdmem
      exact absurd hdmem (List.not_mem_nil d)
    have hpostnil : post.flatMap
        (fun u => (sortedConverters registry).filter (blockPred present ff u t)) = [] := by
      apply List.flatMap_eq_nil_iff.mpr
      intro u _
      apply filter_sorted_eq_nil
      intro d hd
      by_contra hq
      rw [Bool.not_eq_false] at hq
      have := blockPred_availMatch hq
      rw [hnomatch d hd] at this
      cases this
    rw [hpostnil]
    simp

/-- C1: For every call to `Converter.get_converter` with an ordered
target-preference list, the winner is chosen by walking the target formats
in caller-preference order and, at the first format having at least one
available converter, picking the available converter with the lowest
`order` value (ties broken by registration order); a later-preferred format
is never chosen once an earlier-preferred format has an available
converter, even if the later format's converter has a lower order value.
Formally: if `get_converter` returns converter `c` for target `t`, then
(1) `t` is the first target in the preference list for which any registered
converter is an available match — every strictly earlier target has none;
(2) `c` is an available match for `t`; (3) `c` has minimal `order` among
all available matches for `t` in the registry; and (4) every available
match for `t` registered strictly before `c` has strictly larger `order`
(so equal orders are resolved in favor of the earliest registration). -/
theorem get_converter_selects_first_target_lowest_order
    (registry : List ConvDesc) (present : List String) (ff : String)
    (targets : List String) (c : ConvDesc) (t : String)
    (h : get_converter registry present ff targets = .ok c t) :
    (∃ pre post, targets = pre ++ t :: post ∧
      (∀ u ∈ pre, ∀ d ∈ registry, availMatch present ff u d = false)) ∧
    availMatch present ff t c = true ∧
    (∀ d ∈ registry, availMatch present ff t d = true → c.order ≤ d.order) ∧
    (∃ l1 l2, registry = l1 ++ c :: l2 ∧
      ∀ d ∈ l1, availMatch present ff t d = true → c.order < d.order) := by
  rw [get_converter] at h
  by_cases h1 : (validConverters registry ff targets).isEmpty
  · rw [if_pos h1] at h
    cases h
  · rw [if_neg h1] at h
    by_cases h2 : ((validConverters registry ff targets).filter
        (is_available present)).isEmpty
    · rw [if_pos h2] at h
      cases h
    · rw [if_neg h2] at h
      cases hp : pickBest ((validConverters registry ff targets).filter
          (is_available present)) targets with
      | none => rw [hp] at h; cases h
      | some ct =>
        rw [hp] at h
        obtain ⟨c', t'⟩ := ct
        cases h
        obtain ⟨pre, post, rfl, hpreA, hhead⟩ :=
          pickBest_eq_some _ _ _ _ hp
        -- lift the per-target emptiness to registry level
        have hpre : ∀ u ∈ pre, ∀ d ∈ registry,
            availMatch present ff u d = false := by
          intro u hu d hd
          by_contra hq
          rw [Bool.not_eq_false, availMatch, Bool.and_eq_true] at hq
          have hdS : d ∈ sortedConverters registry :=
            mem_sortedConverters.mpr hd
          have hdvalid : d ∈ validConverters registry ff (pre ++ t :: post) :=
            List.mem_flatMap.mpr
              ⟨u, List.mem_append_left _ hu,
               List.mem_filter.mpr ⟨hdS, hq.1⟩⟩
          have hdavail : d ∈ (validConverters registry ff
              (pre ++ t :: post)).filter (is_available present) :=
            List.mem_filter.mpr ⟨hdvalid, hq.2⟩
          have hcontains : d.to_formats.contains u = true := by
            have := hq.1
            rw [matchesConv, Bool.and_eq_true] at this
            exact this.2
          have hmem : d ∈ ((validConverters registry ff
              (pre ++ t :: post)).filter (is_available present)).filter
                (fun d => d.to_formats.contains u) :=
            List.mem_filter.mpr ⟨hdavail, hcontains⟩
          rw [hpreA u hu] at hmem
          exact absurd hmem (List.not_mem_nil d)
        have hfind : firstMinByOrder
            (registry.filter (availMatch present ff t)) = some c := by
          rw [← find?_sortedConverters, ←
            availConverters_filter_head registry present ff pre post t hpre]
          exact hhead
        obtain ⟨hPc, hmin⟩ := firstMinFilter_min _ _ _ hfind
        obtain ⟨l1, l2, hdecomp, hl1⟩ := firstMinFilter_first _ _ _ hfind
        exact ⟨⟨pre, post, rfl, hpre⟩, hPc, hmin, l1, l2, hdecomp, hl1⟩

/-- Converter X of the spec's worked example: `.svg → .png`, order 1. -/
def convX : ConvDesc := ⟨[".svg"], [".png"], 1, []⟩

/-- Converter Y of the spec's worked example: `.svg → .pdf`, order 5. -/
def convY : ConvDesc := ⟨[".svg"], [".pdf"], 5, []⟩

/-- C1 witness: the spec's worked example — preference `['.pdf', '.png']`,
source `.svg`, X (`.svg → .png`, order 1) and Y (`.svg → .pdf`, order 5)
both available — selects Y for `.pdf`, and the selection properties hold at
that instance. -/
theorem get_converter_selects_witness :
    (∃ pre post, [".pdf", ".png"] = pre ++ ".pdf" :: post ∧
      (∀ u ∈ pre, ∀ d ∈ [convX, convY], availMatch [] ".svg" u d = false)) ∧
    availMatch [] ".svg" ".pdf" convY = true ∧
    (∀ d ∈ [convX, convY], availMatch [] ".svg" ".pdf" d = true →
      convY.order ≤ d.order) ∧
    (∃ l1 l2, [convX, convY] = l1 ++ convY :: l2 ∧
      ∀ d ∈ l1, availMatch [] ".svg" ".pdf" d = true →
        convY.order < d.order) :=
  get_converter_selects_first_target_lowest_order [convX, convY] []
    ".svg" [".pdf", ".png"] convY ".pdf" (by decide)

lemma mem_validConverters {registry : List ConvDesc} {ff : String}
    {targets : List String} {d : ConvDesc} :
    d ∈ validConverters registry ff targets ↔
      d ∈ registry ∧ ∃ t ∈ targets, matchesConv ff t d = true := by
  rw [validConverters]
  rw [List.mem_flatMap]
  constructor
  · rintro ⟨t, ht, hd⟩
    rw [List.mem_filter] at hd
    exact ⟨mem_sortedConverters.mp hd.1, t, ht, hd.2⟩
  · rintro ⟨hd, t, ht, hm⟩
    exact ⟨t, ht, List.mem_filter.mpr ⟨mem_sortedConverters.mpr hd, hm⟩⟩

/-- C8: when at least one registered converter handles the conversion but
none of the eligible converters has all its required executables available,
`get_converter` fails with the missing-executable error, and the error's
data enumerates every required executable name of every otherwise-eligible
converter. -/
theorem get_converter_missing_exec_enumerates (registry : List ConvDesc)
    (present : List String) (ff : String) (targets : List String)
    (hhandles : ∃ d ∈ registry, ∃ t ∈ targets, matchesConv ff t d = true)
    (hnoavail : ∀ d ∈ registry, (∃ t ∈ targets, matchesConv ff t d = true) →
      is_available present d = false) :
    ∃ es, get_converter registry present ff targets = .missingExec es ∧
      ∀ d ∈ registry, (∃ t ∈ targets, matchesConv ff t d = true) →
        ∀ e ∈ d.required_execs, e ∈ es := by
  have hvalidne : ¬(validConverters registry ff targets).isEmpty := by
    obtain ⟨d, hd, t, ht, hm⟩ := hhandles
    have hmem : d ∈ validConverters registry ff targets :=
      mem_validConverters.mpr ⟨hd, t, ht, hm⟩
    intro hempty
    rw [List.isEmpty_iff] at hempty
    rw [hempty] at hmem
    exact absurd hmem (List.not_mem_nil d)
  have hfil : (validConverters registry ff targets).filter
      (is_available present) = [] := by
    apply List.filter_eq_nil_iff.mpr
    intro d hd
    obtain ⟨hdreg, hdt⟩ := mem_validConverters.mp hd
    rw [hnoavail d hdreg hdt]
    simp
  refine ⟨((validConverters registry ff targets).map
    (fun c => c.required_execs)).flatten, ?_, ?_⟩
  · rw [get_converter, if_neg hvalidne, hfil]
    rfl
  · intro d hdreg hdt e he
    have hdvalid : d ∈ validConverters registry ff targets :=
      mem_validConverters.mpr ⟨hdreg, hdt⟩
    exact List.mem_flatten.mpr
      ⟨d.required_execs, List.mem_map.mpr ⟨d, hdvalid, rfl⟩, he⟩

/-- A converter needing an executable that is not installed, for the C8
witness: `.svg → .pdf`, order 1, requires `inkscape`. -/
def convZ : ConvDesc := ⟨[".svg"], [".pdf"], 1, ["inkscape"]⟩

/-- C8 witness: with only `convZ` registered and no executables present,
selection fails with the missing-executable error naming `inkscape`. -/
theorem get_converter_missing_exec_witness :
    ∃ es, get_converter [convZ] [] ".svg" [".pdf"] = .missingExec es ∧
      ∀ d ∈ [convZ], (∃ t ∈ [".pdf"], matchesConv ".svg" t d = true) →
        ∀ e ∈ d.required_execs, e ∈ es :=
  get_converter_missing_exec_enumerates [convZ] [] ".svg" [".pdf"]
    (by decide) (by decide)

/-! ## The `convert` entry point

Embedding of `convert()` from `disseminate/convert/converter.py`.  The
filesystem facts the function consults are collected in a `ConvertWorld`:
whether the source exists, its extension and modification time, whether the
target directory exists, the registry, and the state of candidate target
files.  The outcome of actually running the chosen converter
(`converter.convert()`) is part of the world as well, since the external
tool is outside the model.  The second component of the result records
whether the external conversion step was invoked at all. -/

/-- The facts `convert()` reads from its environment. -/
structure ConvertWorld where
  registry : List ConvDesc
  present : List String
  srcExists : Bool
  srcSuffix : String
  srcMtime : Nat
  targetDirExists : Bool
  tgtExists : String → Bool
  tgtMtime : String → Nat
  convertRaises : Bool
  convertOk : Bool
  tgtExistsAfter : String → Bool

/-- The error raised (as `ConverterError` in Python) by `convert`. -/
inductive ConvErr where
  | srcMissing
  | srcNoExt
  | dirMissing
  | selectionFailed (r : GetConvResult)
  | conversionFailed
deriving DecidableEq, Repr

/-- The caller-visible outcome of `convert`. -/
inductive ConvertOutcome where
  | file (p : String)
  | notConverted
  | raised (e : ConvErr)
deriving DecidableEq, Repr

/-- Embedding of `Converter.target_filepath()`: the base path extended with the target
format extension (a `.` is prepended when the format does not carry one). -/
def target_filepath (base target : String) : String :=
  base ++ (if target.startsWith "." then target else "." ++ target)

/-- Embedding of `convert(src_filepath, target_basefilepath, targets, raise_error,
cache, create_dirs)`.  Returns the outcome together with a flag telling
whether the external conversion (`converter.convert()`) was invoked. -/
def convert (w : ConvertWorld) (base : String) (targets : List String)
    (raise_error cache create_dirs : Bool) : ConvertOutcome × Bool :=
  if !w.srcExists then
    (if raise_error then .raised .srcMissing else .notConverted, false)
  else if w.srcSuffix == "" then
    (if raise_error then .raised .srcNoExt else .notConverted, false)
  else if !w.targetDirExists && !create_dirs then
    -- this branch raises regardless of `raise_error` in the source
    (.raised .dirMissing, false)
  else
    match get_converter w.registry w.present w.srcSuffix targets with
    | .ok _ t =>
      let tf := target_filepath base t
      if cache && w.tgtExists tf && decide (w.srcMtime ≤ w.tgtMtime tf) then
        (.file tf, false)
      else if w.convertRaises then
        (if raise_error then .raised .conversionFailed else .notConverted,
         true)
      else if w.convertOk && w.tgtExistsAfter tf then
        (.file tf, true)
      else
        (.notConverted, true)
    | r => (if raise_error then .raised (.selectionFailed r)
            else .notConverted, false)

/-- C6: with caching enabled, once converter selection has succeeded, if
the resolved target file exists with a modification time at or after the
source's, `convert` returns the existing target path without invoking the
external conversion; and when the caller disables caching, the conversion
step is invoked regardless. -/
theorem convert_cache_returns_existing (w : ConvertWorld) (base : String)
    (targets : List String) (raise_error create_dirs : Bool)
    (c : ConvDesc) (t : String)
    (hsrc : w.srcExists = true) (hsuf : w.srcSuffix ≠ "")
    (hdir : w.targetDirExists = true ∨ create_dirs = true)
    (hsel : get_converter w.registry w.present w.srcSuffix targets = .ok c t)
    (hex : w.tgtExists (target_filepath base t) = true)
    (hmt : w.srcMtime ≤ w.tgtMtime (target_filepath base t)) :
    convert w base targets raise_error true create_dirs =
      (.file (target_filepath base t), false) ∧
    (convert w base targets raise_error false create_dirs).2 = true := by
  have hsuf' : (w.srcSuffix == "") = false := by
    rw [beq_eq_false_iff_ne]
    exact hsuf
  have hdir' : (!w.targetDirExists && !create_dirs) = false := by
    rcases hdir with h | h <;> simp [h]
  constructor
  · rw [convert]
    simp [hsrc, hsuf', hdir', hsel, hex, hmt]
  · rw [convert]
    simp only [hsrc, Bool.not_true, hsuf', hdir', hsel, Bool.false_and,
      Bool.and_false, if_false, Bool.false_eq_true]
    cases hr : w.convertRaises <;>
      cases hk : (w.convertOk && w.tgtExistsAfter (target_filepath base t)) <;>
        simp [hr, hk]

/-- A world for the C6 witness: selection succeeds for `.svg → .png`, the
target `img.png` already exists and is newer than the source. -/
def w6 : ConvertWorld where
  registry := [convX]
  present := []
  srcExists := true
  srcSuffix := ".svg"
  srcMtime := 5
  targetDirExists := true
  tgtExists := fun _ => true
  tgtMtime := fun _ => 10
  convertRaises := false
  convertOk := true
  tgtExistsAfter := fun _ => true

/-- C6 witness: at the concrete world `w6`, the cached file is returned
without invocation, and disabling caching invokes the converter. -/
theorem convert_cache_returns_existing_witness :
    convert w6 "img" [".png"] true true true =
      (.file (target_filepath "img" ".png"), false) ∧
    (convert w6 "img" [".png"] true false true).2 = true :=
  convert_cache_returns_existing w6 "img" [".png"] true true convX ".png"
    rfl (by decide) (Or.inl rfl) (by decide) rfl (by decide)

/-- C9: when converter selection fails, `convert` raises the selection
error (or returns the not-converted marker when `raise_error` is off) and
never invokes the external tool, even when caching is enabled and every
candidate target file exists with a modification time at or after the
source's: the cache short-circuit is evaluated only after selection
succeeds. -/
theorem convert_selection_error_beats_cache (w : ConvertWorld)
    (base : String) (targets : List String) (create_dirs : Bool)
    (r : GetConvResult)
    (hsrc : w.srcExists = true) (hsuf : w.srcSuffix ≠ "")
    (hdir : w.targetDirExists = true ∨ create_dirs = true)
    (hsel : get_converter w.registry w.present w.srcSuffix targets = r)
    (hnotok : ∀ c t, r ≠ .ok c t)
    (hex : ∀ p, w.tgtExists p = true)
    (hmt : ∀ p, w.srcMtime ≤ w.tgtMtime p) :
    convert w base targets true true create_dirs =
      (.raised (.selectionFailed r), false) ∧
    convert w base targets false true create_dirs =
      (.notConverted, false) := by
  have hsuf' : (w.srcSuffix == "") = false := by
    rw [beq_eq_false_iff_ne]
    exact hsuf
  have hdir' : (!w.targetDirExists && !create_dirs) = false := by
    rcases hdir with h | h <;> simp [h]
  cases r with
  | ok c t => exact absurd rfl (hnotok c t)
  | noConverter ts =>
    constructor <;> (rw [convert]; simp [hsrc, hsuf', hdir', hsel])
  | missingExec es =>
    constructor <;> (rw [convert]; simp [hsrc, hsuf', hdir', hsel])

/-- A world for the C9 witness: empty registry, so selection always fails,
while every target file exists and is newer than the source. -/
def w9 : ConvertWorld where
  registry := []
  present := []
  srcExists := true
  srcSuffix := ".svg"
  srcMtime := 5
  targetDirExists := true
  tgtExists := fun _ => true
  tgtMtime := fun _ => 10
  convertRaises := false
  convertOk := true
  tgtExistsAfter := fun _ => true

/-- C9 witness: at the concrete world `w9` (no registered converter, an
up-to-date target on disk), `convert` raises (or returns not-converted)
rather than returning the existing target. -/
theorem convert_selection_error_beats_cache_witness :
    convert w9 "img" [".png"] true true true =
      (.raised (.selectionFailed (.noConverter [".png"])), false) ∧
    convert w9 "img" [".png"] false true true =
      (.notConverted, false) :=
  convert_selection_error_beats_cache w9 "img" [".png"] true
    (.noConverter [".png"]) rfl (by decide) (Or.inl rfl) rfl
    (fun c t h => GetConvResult.noConfusion h)
    (fun _ => rfl) (fun _ => by show (5 : Nat) ≤ 10; decide)

/-! ## Sequential composite builder

Embedding of `SequentialBuilder` from
`disseminate/builders/composite_builders/sequential_builder.py`.

A subbuilder is reduced to the state `chain_subbuilders` manipulates: its
`infilepaths` list, its settable `outfilepath`, and the resolution a read
of the `outfilepath` property performs when the stored value is unset.
The `Builder` base class providing that property is not part of the source
tree given here; per spec §4.4 a subbuilder whose outfilepath is unset
"is free to choose a cache-appropriate path" re-derived from its inputs,
so the resolution is abstracted as the subbuilder's `derive` function. -/

/-- The per-stage state `SequentialBuilder.chain_subbuilders` reads and
writes.  `derive` — modelled from the spec: the cache-appropriate output
path a read of the `outfilepath` property computes from the current
`infilepaths` when no explicit outfilepath is stored (the property itself
lives in the `builders/builder.py` module, absent from this tree). -/
structure SubBuilder where
  infilepaths : List String
  outfilepath : Option String
  derive : List String → Option String

/-- A read of `subbuilder.outfilepath`: the stored value if set, otherwise
the derived cache path. -/
def resolveOut (b : SubBuilder) : Option String :=
  match b.outfilepath with
  | some p => some p
  | none => b.derive b.infilepaths

/-- The loop of `chain_subbuilders` (lines 40–53): thread
`current_infilepaths` through the subbuilders, overwriting each
subbuilder's inputs (when the current list is non-empty), unsetting its
outfilepath, and turning its resolved output into the next stage's sole
input. -/
def chainLoop (cur : List String) : List SubBuilder → List SubBuilder
  | [] => []
  | b :: rest =>
    let b1 := if cur.isEmpty then b else { b with infilepaths := cur }
    let b2 := { b1 with outfilepath := none }
    let cur' := match resolveOut b2 with
      | some p => [p]
      | none => cur
    b2 :: chainLoop cur' rest

/-- Line 56 of `chain_subbuilders`: point the last subbuilder at the
composite's declared outfilepath.  (In Python this indexes
`subbuilders[-1]`; it is only reached with a non-empty list.) -/
def setLastOut : List SubBuilder → Option String → List SubBuilder
  | [], _ => []
  | [b], out => [{ b with outfilepath := out }]
  | b :: b' :: rest, out => b :: setLastOut (b' :: rest) out

/-- The composite state `SequentialBuilder.__init__` works on. -/
structure SeqBuilder where
  infilepaths : List String
  outfilepath : Option String
  subbuilders : List SubBuilder
  copy : Bool
  chain_on_creation : Bool

/-- Embedding of `SequentialBuilder.chain_subbuilders`. -/
def chain_subbuilders (c : SeqBuilder) : SeqBuilder :=
  { c with subbuilders :=
      setLastOut (chainLoop c.infilepaths c.subbuilders) c.outfilepath }

/-- Embedding of `SequentialBuilder.__init__` after `super().__init__`: append a `Copy`
stage when `copy` is set and subbuilders are present, then chain.
`copyDerive` — modelled from the spec: the cache-path choice of the
appended `Copy(env)` builder (the `Copy` class is absent from this tree). -/
def seqInit (c : SeqBuilder) (copyDerive : List String → Option String) :
    SeqBuilder :=
  let c1 := if c.copy && !c.subbuilders.isEmpty then
      { c with subbuilders := c.subbuilders ++ [⟨[], none, copyDerive⟩] }
    else c
  if c1.chain_on_creation && !c1.subbuilders.isEmpty then
    chain_subbuilders c1
  else c1

/-! ### Status rollup

`SequentialBuilder.status` (lines 64–89).  A subbuilder's `status` is a
property whose answer may drift between polls (the source carries a "Bug
alert" comment about exactly this), so a subbuilder is modelled for status
purposes as a stream `Nat → String` of answers indexed by a poll counter:
polling reads the stream at the current counter and advances the counter.
The composite status function takes the list of (stream, counter) pairs
and returns the status string, the updated counters, and the value of the
composite's build-needed flag after the call. -/

/-- The scan loop of `SequentialBuilder.status`: read each subbuilder's
status once, in order; stop at the first non-`done` answer.  Returns the
early status (or `none` if the loop completed), the updated poll counters,
and `number_subbuilders_done`. -/
def statusScan : List ((Nat → String) × Nat) → Option String × List Nat × Nat
  | [] => (none, [], 0)
  | (f, k) :: rest =>
    let s := f k
    if s == "done" then
      match statusScan rest with
      | (r, ks, ndone) => (r, (k + 1) :: ks, ndone + 1)
    else
      (some s, (k + 1) :: rest.map (fun x => x.2), 0)

/-- Embedding of `SequentialBuilder.status`: `done` without polling when no build is
needed; otherwise the scan's early status, or — when the scan completes —
`done` with the build-needed flag reset if every subbuilder was `done`,
else `building`. -/
def seqStatus (buildNeeded : Bool)
    (subs : List ((Nat → String) × Nat)) : String × List Nat × Bool :=
  if !buildNeeded then
    ("done", subs.map (fun x => x.2), buildNeeded)
  else
    match statusScan subs with
    | (some s, ks, _) => (s, ks, buildNeeded)
    | (none, ks, ndone) =>
      if ndone == subs.length then ("done", ks, false)
      else ("building", ks, buildNeeded)

lemma statusScan_none_ndone :
    ∀ (subs : List ((Nat → String) × Nat)) (ks : List Nat) (ndone : Nat),
      statusScan subs = (none, ks, ndone) → ndone = subs.length := by
  intro subs
  induction subs with
  | nil =>
    intro ks ndone h
    rw [statusScan] at h
    cases h
    rfl
  | cons p rest ih =>
    intro ks ndone h
    obtain ⟨f, k⟩ := p
    rw [statusScan] at h
    by_cases hs : (f k == "done") = true
    · rw [if_pos hs] at h
      cases hrest : statusScan rest with
      | mk r kn =>
        obtain ⟨ks', nd'⟩ := kn
        rw [hrest] at h
        cases h
        have hnd := ih ks' nd' hrest
        simp [hnd]
    · rw [if_neg hs] at h
      cases h

lemma statusScan_result (subs : List ((Nat → String) × Nat)) :
    (statusScan subs).1 =
      (subs.map (fun p => p.1 p.2)).find? (fun s => !(s == "done")) := by
  induction subs with
  | nil => rfl
  | cons p rest ih =>
    obtain ⟨f, k⟩ := p
    rw [statusScan, List.map_cons]
    by_cases hs : (f k == "done") = true
    · rw [if_pos hs]
      cases hrest : statusScan rest with
      | mk r kn =>
        rw [List.find?_cons_of_neg _ (by simp [hs])]
        rw [← ih, hrest]
    · rw [if_neg hs]
      rw [List.find?_cons_of_pos _ (by simp [hs])]

lemma statusScan_counts_length (subs : List ((Nat → String) × Nat)) :
    (statusScan subs).2.1.length = subs.length := by
  induction subs with
  | nil => rfl
  | cons p rest ih =>
    obtain ⟨f, k⟩ := p
    rw [statusScan]
    by_cases hs : (f k == "done") = true
    · rw [if_pos hs]
      cases hrest : statusScan rest with
      | mk r kn =>
        rw [hrest] at ih
        simp [ih]
    · rw [if_neg hs]
      simp

lemma statusScan_counts_bound (subs : List ((Nat → String) × Nat)) :
    ∀ (k : Nat) (f : Nat → String) (c : Nat), subs[k]? = some (f, c) →
      (statusScan subs).2.1[k]? = some c ∨
      (statusScan subs).2.1[k]? = some (c + 1) := by
  induction subs with
  | nil => intro k f c h; simp at h
  | cons p rest ih =>
    obtain ⟨f0, k0⟩ := p
    intro k f c h
    rw [statusScan]
    by_cases hs : (f0 k0 == "done") = true
    · rw [if_pos hs]
      cases hrest : statusScan rest with
      | mk r kn =>
        cases k with
        | zero =>
          simp at h
          right
          simp [h.2]
        | succ k' =>
          simp only [List.getElem?_cons_succ] at h
          have := ih k' f c h
          rw [hrest] at this
          simpa using this
    · rw [if_neg hs]
      cases k with
      | zero =>
        simp at h
        right
        simp [h.2]
      | succ k' =>
        simp only [List.getElem?_cons_succ] at h
        left
        simp only [List.getElem?_cons_succ, List.getElem?_map, h]
        rfl

lemma statusScan_counts_polled (subs : List ((Nat → String) × Nat)) :
    ∀ (k : Nat) (f : Nat → String) (c : Nat), subs[k]? = some (f, c) →
      (∀ (j : Nat) (g : Nat → String) (d : Nat), j < k →
        subs[j]? = some (g, d) → g d = "done") →
      (statusScan subs).2.1[k]? = some (c + 1) := by
  induction subs with
  | nil => intro k f c h; simp at h
  | cons p rest ih =>
    obtain ⟨f0, k0⟩ := p
    intro k f c h hearlier
    rw [statusScan]
    cases k with
    | zero =>
      simp at h
      by_cases hs : (f0 k0 == "done") = true
      · rw [if_pos hs]
        cases hrest : statusScan rest with
        | mk r kn => simp [h.2]
      · rw [if_neg hs]
        simp [h.2]
    | succ k' =>
      have hdone0 : f0 k0 = "done" :=
        hearlier 0 f0 k0 (Nat.succ_pos k') (by simp)
      have hs : (f0 k0 == "done") = true := by simp [hdone0]
      rw [if_pos hs]
      simp only [List.getElem?_cons_succ] at h
      cases hrest : statusScan rest with
      | mk r kn =>
        have := ih k' f c h (fun j g d hj hjget =>
          hearlier (j + 1) g d (Nat.succ_lt_succ hj) (by simpa using hjget))
        rw [hrest] at this
        simpa using this

lemma statusScan_counts_unpolled (subs : List ((Nat → String) × Nat)) :
    ∀ (k : Nat) (f : Nat → String) (c : Nat), subs[k]? = some (f, c) →
      (∃ (j : Nat) (g : Nat → String) (d : Nat), j < k ∧
        subs[j]? = some (g, d) ∧ g d ≠ "done") →
      (statusScan subs).2.1[k]? = some c := by
  induction subs with
  | nil => intro k f c h; simp at h
  | cons p rest ih =>
    obtain ⟨f0, k0⟩ := p
    intro k f c h hearly
    obtain ⟨j, g, d, hj, hjget, hjnd⟩ := hearly
    rw [statusScan]
    cases k with
    | zero => omega
    | succ k' =>
      simp only [List.getElem?_cons_succ] at h
      by_cases hs : (f0 k0 == "done") = true
      · rw [if_pos hs]
        cases j with
        | zero =>
          simp at hjget
          rw [← hjget.1, ← hjget.2] at hjnd
          exact absurd (by simpa using hs) hjnd
        | succ j' =>
          simp only [List.getElem?_cons_succ] at hjget
          cases hrest : statusScan rest with
          | mk r kn =>
            have := ih k' f c h ⟨j', g, d, Nat.lt_of_succ_lt_succ hj,
              hjget, hjnd⟩
            rw [hrest] at this
            simpa using this
      · rw [if_neg hs]
        simp only [List.getElem?_cons_succ, List.getElem?_map, h]
        rfl

lemma seqStatus_result (subs : List ((Nat → String) × Nat)) :
    (seqStatus true subs).1 =
      match (statusScan subs).1 with
      | some s => s
      | none => "done" := by
  rw [seqStatus]
  cases h : statusScan subs with
  | mk r kn =>
    obtain ⟨ks, nd⟩ := kn
    cases r with
    | some s => simp
    | none =>
      have hnd := statusScan_none_ndone subs ks nd h
      simp [hnd]

lemma seqStatus_counts (subs : List ((Nat → String) × Nat)) :
    (seqStatus true subs).2.1 = (statusScan subs).2.1 := by
  rw [seqStatus]
  cases h : statusScan subs with
  | mk r kn =>
    obtain ⟨ks, nd⟩ := kn
    cases r with
    | some s => simp
    | none =>
      by_cases hnd : (nd == subs.length) = true <;> simp [hnd]

/-- C5: for a sequential composite whose build is needed, reading the
composite's status scans the subbuilders in pipeline order and returns the
status of the first subbuilder whose (single) status read is not `done` —
`done` when every subbuilder reads `done`.  Each subbuilder's status is
read at most once per query (its poll counter advances by at most one);
subbuilders up to and including the first non-`done` one are read exactly
once, and subbuilders after it are not read at all. -/
theorem seqStatus_first_non_done_one_shot
    (subs : List ((Nat → String) × Nat)) :
    ((seqStatus true subs).1 =
      match (subs.map (fun p => p.1 p.2)).find? (fun s => !(s == "done")) with
      | some s => s
      | none => "done") ∧
    (seqStatus true subs).2.1.length = subs.length ∧
    (∀ (k : Nat) (f : Nat → String) (c : Nat), subs[k]? = some (f, c) →
      (seqStatus true subs).2.1[k]? = some c ∨
      (seqStatus true subs).2.1[k]? = some (c + 1)) ∧
    (∀ (k : Nat) (f : Nat → String) (c : Nat), subs[k]? = some (f, c) →
      (∀ (j : Nat) (g : Nat → String) (d : Nat), j < k →
        subs[j]? = some (g, d) → g d = "done") →
      (seqStatus true subs).2.1[k]? = some (c + 1)) ∧
    (∀ (k : Nat) (f : Nat → String) (c : Nat), subs[k]? = some (f, c) →
      (∃ (j : Nat) (g : Nat → String) (d : Nat), j < k ∧
        subs[j]? = some (g, d) ∧ g d ≠ "done") →
      (seqStatus true subs).2.1[k]? = some c) := by
  refine ⟨?_, ?_, ?_, ?_, ?_⟩
  · rw [seqStatus_result, statusScan_result]
  · rw [seqStatus_counts]
    exact statusScan_counts_length subs
  · intro k f c h
    rw [seqStatus_counts]
    exact statusScan_counts_bound subs k f c h
  · intro k f c h hearlier
    rw [seqStatus_counts]
    exact statusScan_counts_polled subs k f c h hearlier
  · intro k f c h hearly
    rw [seqStatus_counts]
    exact statusScan_counts_unpolled subs k f c h hearly

/-- A concrete pipeline for the C5 witness: first subbuilder answers
`done`, second answers `ready` (at poll index 3), third would answer
`done` but must not be polled. -/
def demoSubs : List ((Nat → String) × Nat) :=
  [((fun _ => "done"), 0), ((fun _ => "ready"), 3), ((fun _ => "done"), 7)]

/-- C5 witness: on `demoSubs` the composite status is `ready` (the first
non-`done` read), the second subbuilder was polled exactly once
(counter 3 → 4), and the third was not polled (counter stays 7). -/
theorem seqStatus_first_non_done_witness :
    (seqStatus true demoSubs).1 = "ready" ∧
    (seqStatus true demoSubs).2.1[1]? = some 4 ∧
    (seqStatus true demoSubs).2.1[2]? = some 7 :=
  ⟨((seqStatus_first_non_done_one_shot demoSubs).1).trans (by rfl),
   (seqStatus_first_non_done_one_shot demoSubs).2.2.2.1 1
     (fun _ => "ready") 3 rfl
     (by
       intro j g d hj hjget
       have hj0 : j = 0 := by omega
       subst hj0
       simp [demoSubs] at hjget
       rw [← hjget.1]),
   (seqStatus_first_non_done_one_shot demoSubs).2.2.2.2 2
     (fun _ => "done") 7 rfl
     ⟨1, (fun _ => "ready"), 3, by omega, rfl, by decide⟩⟩

/-- C10: whenever the status scan over the subbuilders completes without
returning early, the count of done subbuilders equals the total number of
subbuilders, so the composite returns `done` and resets its build-needed
flag; the trailing `building` return branch is unreachable. -/
theorem statusScan_complete_means_all_done
    (subs : List ((Nat → String) × Nat)) (ks : List Nat) (ndone : Nat)
    (h : statusScan subs = (none, ks, ndone)) :
    ndone = subs.length ∧ seqStatus true subs = ("done", ks, false) := by
  have hnd := statusScan_none_ndone subs ks ndone h
  refine ⟨hnd, ?_⟩
  rw [seqStatus, h]
  simp [hnd]

/-- A single all-`done` subbuilder, for the C10 witness. -/
def demoAllDone : List ((Nat → String) × Nat) := [((fun _ => "done"), 0)]

/-- C10 witness: on `demoAllDone` the scan completes, the done-count
equals the length, and the composite reports `done` with the build-needed
flag reset. -/
theorem statusScan_complete_witness :
    1 = demoAllDone.length ∧
    seqStatus true demoAllDone = ("done", [1], false) :=
  statusScan_complete_means_all_done demoAllDone [1] 1 rfl

/-! ### Chaining lemmas -/

/-- The state of a subbuilder after one pass of the chaining loop (with a
non-empty current input list): inputs overwritten, outfilepath unset. -/
def chainStage (cur : List String) (b0 : SubBuilder) : SubBuilder :=
  { infilepaths := cur, outfilepath := none, derive := b0.derive }

lemma chainLoop_length (cur : List String) (bs : List SubBuilder) :
    (chainLoop cur bs).length = bs.length := by
  induction bs generalizing cur with
  | nil => rfl
  | cons b rest ih => rw [chainLoop]; simp [ih]

lemma chainLoop_cons (cur : List String) (b0 : SubBuilder)
    (rest : List SubBuilder) (hcur : cur ≠ []) :
    chainLoop cur (b0 :: rest) =
      chainStage cur b0 ::
        chainLoop
          (match resolveOut (chainStage cur b0) with
           | some p => [p]
           | none => cur) rest := by
  have hne : cur.isEmpty = false := by
    cases cur with
    | nil => exact absurd rfl hcur
    | cons a l => rfl
  rw [chainLoop]
  simp [hne, chainStage]

lemma chainLoop_head (cur : List String) (bs : List SubBuilder)
    (hcur : cur ≠ []) (b : SubBuilder)
    (h : (chainLoop cur bs)[0]? = some b) :
    b.infilepaths = cur ∧ b.outfilepath = none := by
  cases bs with
  | nil => rw [chainLoop] at h; cases h
  | cons b0 rest =>
    rw [chainLoop_cons cur b0 rest hcur] at h
    simp at h
    rw [← h]
    exact ⟨rfl, rfl⟩

lemma chainLoop_adjacent (bs : List SubBuilder) :
    ∀ (cur : List String), cur ≠ [] →
      (∀ b ∈ bs, ∀ ins : List String, ins ≠ [] → ∃ p, b.derive ins = some p) →
      ∀ (k : Nat) (b b' : SubBuilder), (chainLoop cur bs)[k]? = some b →
        (chainLoop cur bs)[k + 1]? = some b' →
        ∃ p, resolveOut b = some p ∧ b'.infilepaths = [p] := by
  induction bs with
  | nil =>
    intro cur _ _ k b b' h _
    rw [chainLoop] at h
    cases h
  | cons b0 rest ih =>
    intro cur hcur hder k b b' hk hk1
    obtain ⟨p, hp⟩ := hder b0 (by simp) cur hcur
    have hres : resolveOut (chainStage cur b0) = some p := by
      rw [resolveOut, chainStage]
      exact hp
    rw [chainLoop_cons cur b0 rest hcur, hres] at hk hk1
    cases k with
    | zero =>
      simp at hk
      subst hk
      simp only [List.getElem?_cons_succ] at hk1
      have hh := chainLoop_head [p] rest (by simp) b' hk1
      exact ⟨p, hres, hh.1⟩
    | succ k' =>
      simp only [List.getElem?_cons_succ] at hk hk1
      exact ih [p] (by simp)
        (fun b hb ins hins => hder b (by simp [hb]) ins hins) k' b b' hk hk1

lemma setLastOut_length (subs : List SubBuilder) (out : Option String) :
    (setLastOut subs out).length = subs.length := by
  induction subs with
  | nil => rfl
  | cons b rest ih =>
    cases rest with
    | nil => rfl
    | cons b' rest' => rw [setLastOut]; simpa using ih

lemma setLastOut_getElem?_of_lt (subs : List SubBuilder)
    (out : Option String) :
    ∀ k, k + 1 < subs.length → (setLastOut subs out)[k]? = subs[k]? := by
  induction subs with
  | nil => intro k h; simp at h
  | cons b rest ih =>
    intro k h
    cases rest with
    | nil => simp at h
    | cons b' rest' =>
      rw [setLastOut]
      cases k with
      | zero => simp
      | succ k' =>
        simp only [List.getElem?_cons_succ]
        exact ih k' (by simpa using h)

lemma setLastOut_infilepaths (subs : List SubBuilder) (out : Option String) :
    ∀ (k : Nat) (b' : SubBuilder), (setLastOut subs out)[k]? = some b' →
      ∃ b0, subs[k]? = some b0 ∧ b'.infilepaths = b0.infilepaths := by
  induction subs with
  | nil => intro k b' h; rw [setLastOut] at h; cases h
  | cons b rest ih =>
    intro k b' h
    cases rest with
    | nil =>
      cases k with
      | zero =>
        rw [setLastOut] at h
        simp at h
        exact ⟨b, rfl, by rw [← h]⟩
      | succ k' =>
        rw [setLastOut] at h
        simp at h
    | cons c rest' =>
      rw [setLastOut] at h
      cases k with
      | zero =>
        simp at h
        exact ⟨b, rfl, by rw [← h]⟩
      | succ k' =>
        simp only [List.getElem?_cons_succ] at h ⊢
        exact ih k' b' h

lemma setLastOut_getLast? (subs : List SubBuilder) (out : Option String) :
    (setLastOut subs out).getLast? =
      subs.getLast?.map (fun b => { b with outfilepath := out }) := by
  induction subs with
  | nil => rfl
  | cons b rest ih =>
    cases rest with
    | nil => rfl
    | cons b' rest' =>
      rw [setLastOut]
      cases hsl : setLastOut (b' :: rest') out with
      | nil =>
        have := setLastOut_length (b' :: rest') out
        rw [hsl] at this
        cases this
      | cons x xs =>
        rw [List.getLast?_cons_cons, ← hsl, ih, List.getLast?_cons_cons]

/-- C4: for every `SequentialBuilder` constructed with a non-empty
subbuilder list, `copy=True` and chaining on creation — with declared
inputs and a declared outfilepath, and with every stage able to choose a
cache path for any non-empty input list — a trivial terminal copy stage is
appended (`len(subbuilders) + 1` stages), and after chaining every stage
`k+1`'s sole input equals stage `k`'s resolved output, and the final
stage's declared output equals the composite's declared outfilepath. -/
theorem seqInit_appends_copy_and_chains
    (c : SeqBuilder) (copyDerive : List String → Option String) (fp : String)
    (hne : c.subbuilders ≠ [])
    (hcopy : c.copy = true)
    (hchain : c.chain_on_creation = true)
    (hin : c.infilepaths ≠ [])
    (hout : c.outfilepath = some fp)
    (hder : ∀ b ∈ c.subbuilders, ∀ ins : List String, ins ≠ [] →
      ∃ p, b.derive ins = some p)
    (hcopyder : ∀ ins : List String, ins ≠ [] →
      ∃ p, copyDerive ins = some p) :
    (seqInit c copyDerive).subbuilders.length = c.subbuilders.length + 1 ∧
    (∀ (k : Nat) (b b' : SubBuilder),
      (seqInit c copyDerive).subbuilders[k]? = some b →
      (seqInit c copyDerive).subbuilders[k + 1]? = some b' →
      ∃ p, resolveOut b = some p ∧ b'.infilepaths = [p]) ∧
    (∃ last, (seqInit c copyDerive).subbuilders.getLast? = some last ∧
      last.outfilepath = some fp) := by
  have hbe : c.subbuilders.isEmpty = false := by
    cases h : c.subbuilders with
    | nil => exact absurd h hne
    | cons a l => rfl
  have hbe2 : (c.subbuilders ++ [(⟨[], none, copyDerive⟩ : SubBuilder)]).isEmpty
      = false := by
    cases h : c.subbuilders ++ [(⟨[], none, copyDerive⟩ : SubBuilder)] with
    | nil => exact absurd h (by simp)
    | cons a l => rfl
  have hseq : (seqInit c copyDerive).subbuilders =
      setLastOut
        (chainLoop c.infilepaths
          (c.subbuilders ++ [(⟨[], none, copyDerive⟩ : SubBuilder)]))
        c.outfilepath := by
    rw [seqInit]
    simp only [hcopy, hbe, Bool.not_false, Bool.and_true, Bool.true_and,
      if_true, hchain, hbe2, chain_subbuilders]
  have hderAll : ∀ b ∈ c.subbuilders ++
      [(⟨[], none, copyDerive⟩ : SubBuilder)],
      ∀ ins : List String, ins ≠ [] → ∃ p, b.derive ins = some p := by
    intro b hb ins hins
    rcases List.mem_append.mp hb with h | h
    · exact hder b h ins hins
    · simp at h
      subst h
      exact hcopyder ins hins
  have hlenC : (chainLoop c.infilepaths
      (c.subbuilders ++ [(⟨[], none, copyDerive⟩ : SubBuilder)])).length =
      c.subbuilders.length + 1 := by
    rw [chainLoop_length]
    simp
  refine ⟨?_, ?_, ?_⟩
  · rw [hseq, setLastOut_length, hlenC]
  · intro k b b' hk hk1
    rw [hseq] at hk hk1
    have hlt : k + 1 < (chainLoop c.infilepaths
        (c.subbuilders ++ [(⟨[], none, copyDerive⟩ : SubBuilder)])).length := by
      have h1 := (List.getElem?_eq_some.mp hk1).1
      rw [setLastOut_length] at h1
      exact h1
    rw [setLastOut_getElem?_of_lt _ _ k hlt] at hk
    obtain ⟨b0, hb0get, hb0inf⟩ := setLastOut_infilepaths _ _ (k + 1) b' hk1
    obtain ⟨p, hpres, hpinf⟩ := chainLoop_adjacent _ c.infilepaths hin
      hderAll k b b0 hk hb0get
    exact ⟨p, hpres, by rw [hb0inf, hpinf]⟩
  · rw [hseq, setLastOut_getLast?]
    have hCne : chainLoop c.infilepaths
        (c.subbuilders ++ [(⟨[], none, copyDerive⟩ : SubBuilder)]) ≠ [] := by
      intro h
      rw [h] at hlenC
      cases hlenC
    obtain ⟨bl, hbl⟩ := Option.isSome_iff_exists.mp
      (List.getLast?_isSome.mpr hCne)
    rw [hbl, hout]
    exact ⟨_, rfl, rfl⟩

/-- A stage-deriving function for the C4 witness: prepend a tag to the
first input. -/
def demoDerive (tag : String) : List String → Option String :=
  fun ins => some (tag ++ ins.headD "")

/-- A pipeline stage for the C4 witness. -/
def demoStage (tag : String) : SubBuilder := ⟨[], none, demoDerive tag⟩

/-- The 3-stage sequential composite of the spec's chaining property. -/
def demoSeq : SeqBuilder where
  infilepaths := ["src.svg"]
  outfilepath := some "final.pdf"
  subbuilders := [demoStage "a-", demoStage "b-", demoStage "c-"]
  copy := true
  chain_on_creation := true

/-- C4 witness: the concrete 3-stage composite gets a terminal copy stage
(4 stages), adjacent stages are chained output-to-input, and the final
stage's declared output is the composite's declared outfilepath. -/
theorem seqInit_appends_copy_witness :
    (seqInit demoSeq (demoDerive "copy-")).subbuilders.length =
      demoSeq.subbuilders.length + 1 ∧
    (∀ (k : Nat) (b b' : SubBuilder),
      (seqInit demoSeq (demoDerive "copy-")).subbuilders[k]? = some b →
      (seqInit demoSeq (demoDerive "copy-")).subbuilders[k + 1]? = some b' →
      ∃ p, resolveOut b = some p ∧ b'.infilepaths = [p]) ∧
    (∃ last,
      (seqInit demoSeq (demoDerive "copy-")).subbuilders.getLast? =
        some last ∧ last.outfilepath = some "final.pdf") :=
  seqInit_appends_copy_and_chains demoSeq (demoDerive "copy-") "final.pdf"
    (by simp [demoSeq]) rfl rfl (by simp [demoSeq]) rfl
    (by
      intro b hb ins hins
      simp [demoSeq, demoStage] at hb
      rcases hb with rfl | rfl | rfl <;> exact ⟨_, rfl⟩)
    (fun ins _ => ⟨_, rfl⟩)

/-! ## The atomic builder and its rebuild decider

Modelled from the spec: the `Builder` base class (`builders/builder.py`)
and its hash-based decider are not part of the source tree given here —
only their tests are (`tests/builders/test_builder.py`).  Spec §4.2: the
decider fingerprints the ordered concatenation of the input contents and
the resolved action string, and separately records the produced output's
content fingerprint; a build is needed iff there is no record, the stored
input fingerprint differs, the output is missing, or the output's current
content fingerprint differs from the recorded one.  The hash is modelled
as the identity (a collision-free fingerprint): an input fingerprint is
the pair (input contents, action string) and an output fingerprint is the
output content itself. -/

/-- A file on disk: its content and its modification time. -/
structure FileState where
  content : String
  mtime : Nat
deriving DecidableEq, Repr

/-- The filesystem a builder reads and writes, with a monotone clock used
to stamp new modification times. -/
structure BuildFS where
  files : String → Option FileState
  clock : Nat

/-- The decider's persisted record for one output path: the fingerprint of
(input contents, action string) and the fingerprint of the produced
output's content, recorded only after a successful build. -/
structure DecisionRecord where
  inputsFp : List String × String
  outputFp : String
deriving DecidableEq, Repr

/-- The unit of work: input paths, one output path, an action string, and
the external tool's semantics `act` mapping input contents to the output
content it produces. -/
structure BuilderM where
  infilepaths : List String
  outfilepath : String
  action : String
  act : List String → String

/-- Read the contents of all input paths; `none` if any is missing. -/
def inputContents (fs : BuildFS) : List String → Option (List String)
  | [] => some []
  | p :: ps =>
    match fs.files p, inputContents fs ps with
    | some st, some rest => some (st.content :: rest)
    | _, _ => none

/-- Modelled from the spec (§4.2): `decide(inputs, action, output)` — a
build is needed iff there is no record, the stored input fingerprint
differs from the current one, the output is missing, or the output's
current content differs from the recorded output fingerprint. -/
def decide (b : BuilderM) (fs : BuildFS)
    (record : Option DecisionRecord) : Bool :=
  match inputContents fs b.infilepaths, record with
  | some ins, some r =>
    match fs.files b.outfilepath with
    | none => true
    | some out =>
      if r.inputsFp = (ins, b.action) ∧ r.outputFp = out.content then
        false
      else
        true
  | _, _ => true

/-- Write `content` to path `p`, stamping the current clock as the new
modification time and advancing the clock. -/
def writeFile (fs : BuildFS) (p : String) (content : String) : BuildFS where
  files := fun q => if q = p then some ⟨content, fs.clock⟩ else fs.files q
  clock := fs.clock + 1

/-- Modelled from the spec (§4.1): the builder's derived `status` —
`missing (infilepaths)` when an input is absent, `ready` when the decider
confirms a build is needed, `done` when no rebuild is needed. -/
def builderStatus (b : BuilderM) (fs : BuildFS)
    (record : Option DecisionRecord) : String :=
  if (inputContents fs b.infilepaths).isNone then "missing (infilepaths)"
  else if decide b fs record then "ready" else "done"

/-- Modelled from the spec (§4.1/4.2): `build(complete=True)` on the
success path — report `missing` without invoking anything when an input is
absent; return `done` as a no-op when the decider needs no build; else
invoke the external action once, write the output, and record both
fingerprints.  Returns the status, the new filesystem, the new decision
record, and the number of external invocations performed. -/
def build (b : BuilderM) (fs : BuildFS) (record : Option DecisionRecord) :
    String × BuildFS × Option DecisionRecord × Nat :=
  match inputContents fs b.infilepaths with
  | none => ("missing (infilepaths)", fs, record, 0)
  | some ins =>
    if decide b fs record then
      let out := b.act ins
      ("done", writeFile fs b.outfilepath out,
        some ⟨(ins, b.action), out⟩, 1)
    else
      ("done", fs, record, 0)

lemma inputContents_writeFile (fs : BuildFS) (o s : String)
    (paths : List String) (ho : o ∉ paths) :
    inputContents (writeFile fs o s) paths = inputContents fs paths := by
  induction paths with
  | nil => rfl
  | cons p ps ih =>
    have hpo : p ≠ o := fun h => ho (h ▸ List.mem_cons_self p ps)
    rw [inputContents, inputContents, ih (fun h => ho (List.mem_cons_of_mem p h))]
    rw [show (writeFile fs o s).files p = fs.files p by
      rw [writeFile]; simp [hpo]]

lemma build_inputs_missing {b : BuilderM} {fs : BuildFS}
    {record : Option DecisionRecord}
    (h : inputContents fs b.infilepaths = none) :
    build b fs record = ("missing (infilepaths)", fs, record, 0) := by
  simp only [build, h]

lemma build_noop {b : BuilderM} {fs : BuildFS}
    {record : Option DecisionRecord} {ins : List String}
    (hin : inputContents fs b.infilepaths = some ins)
    (hd : decide b fs record = false) :
    build b fs record = ("done", fs, record, 0) := by
  simp [build, hin, hd]

lemma build_run {b : BuilderM} {fs : BuildFS}
    {record : Option DecisionRecord} {ins : List String}
    (hin : inputContents fs b.infilepaths = some ins)
    (hd : decide b fs record = true) :
    build b fs record =
      ("done", writeFile fs b.outfilepath (b.act ins),
        some ⟨(ins, b.action), b.act ins⟩, 1) := by
  simp [build, hin, hd]

lemma decide_no_record {b : BuilderM} {fs : BuildFS} {ins : List String}
    (hin : inputContents fs b.infilepaths = some ins) :
    decide b fs none = true := by
  simp [decide, hin]

lemma decide_output_missing {b : BuilderM} {fs : BuildFS}
    {r : DecisionRecord} {ins : List String}
    (hin : inputContents fs b.infilepaths = some ins)
    (hout : fs.files b.outfilepath = none) :
    decide b fs (some r) = true := by
  simp [decide, hin, hout]

lemma decide_with_record {b : BuilderM} {fs : BuildFS}
    {r : DecisionRecord} {ins : List String} {out : FileState}
    (hin : inputContents fs b.infilepaths = some ins)
    (hout : fs.files b.outfilepath = some out) :
    decide b fs (some r) =
      if r.inputsFp = (ins, b.action) ∧ r.outputFp = out.content then false
      else true := by
  simp only [decide, hin, hout]

lemma builderStatus_inputs_present {b : BuilderM} {fs : BuildFS}
    {record : Option DecisionRecord} {ins : List String}
    (hin : inputContents fs b.infilepaths = some ins) :
    builderStatus b fs record =
      if decide b fs record then "ready" else "done" := by
  simp [builderStatus, hin]

lemma writeFile_files_self (fs : BuildFS) (p : String) (content : String) :
    (writeFile fs p content).files p = some ⟨content, fs.clock⟩ := by
  rw [writeFile]
  simp

/-- C2: building the same unit of work twice in a row with unchanged
inputs performs the external action exactly once.  After a build that
returns `done`, a second `build(complete=True)` over the same inputs,
action and output returns `done` with zero external invocations and leaves
the state — filesystem (hence the output's modification time) and decision
record — unchanged; and calling `build` when the status is already `done`
is a no-op returning `done`.  The output path not being one of the input
paths is what "unchanged inputs" presupposes. -/
theorem builder_build_idempotent (b : BuilderM) (fs : BuildFS)
    (record : Option DecisionRecord)
    (houtin : b.outfilepath ∉ b.infilepaths) :
    (build b fs record).2.2.2 ≤ 1 ∧
    ((build b fs record).1 = "done" →
      build b (build b fs record).2.1 (build b fs record).2.2.1 =
        ("done", (build b fs record).2.1, (build b fs record).2.2.1, 0)) ∧
    (builderStatus b fs record = "done" →
      build b fs record = ("done", fs, record, 0)) := by
  refine ⟨?_, ?_, ?_⟩
  · cases hin : inputContents fs b.infilepaths with
    | none => rw [build_inputs_missing hin]; simp
    | some ins =>
      cases hd : decide b fs record with
      | false => rw [build_noop hin hd]; simp
      | true => rw [build_run hin hd]
  · intro h1
    cases hin : inputContents fs b.infilepaths with
    | none =>
      rw [build_inputs_missing hin] at h1
      simp at h1
    | some ins =>
      cases hd : decide b fs record with
      | true =>
        rw [build_run hin hd]
        have hin2 : inputContents
            (writeFile fs b.outfilepath (b.act ins)) b.infilepaths =
            some ins := by
          rw [inputContents_writeFile fs b.outfilepath _ _ houtin, hin]
        have hd2 : decide b (writeFile fs b.outfilepath (b.act ins))
            (some ⟨(ins, b.action), b.act ins⟩) = false := by
          rw [decide_with_record hin2
            (writeFile_files_self fs b.outfilepath (b.act ins))]
          simp
        rw [build_noop hin2 hd2]
      | false =>
        rw [build_noop hin hd]
        exact build_noop hin hd
  · intro hdone
    cases hin : inputContents fs b.infilepaths with
    | none =>
      rw [builderStatus, hin] at hdone
      simp at hdone
    | some ins =>
      have hd : decide b fs record = false := by
        by_contra h
        rw [Bool.not_eq_false] at h
        rw [builderStatus_inputs_present hin, h] at hdone
        exact absurd (by simpa using hdone) (by decide : ¬("ready" = "done"))
      exact build_noop hin hd

/-- The copy-action builder of `test_builder_md5decision`: one input, one
output, `cp`-like semantics (the output content is the input content). -/
def demoBuilder : BuilderM where
  infilepaths := ["in.txt"]
  outfilepath := "out.txt"
  action := "cp in.txt out.txt"
  act := fun cs => cs.headD ""

/-- A filesystem with only the input file, for the C2 witness. -/
def demoFS : BuildFS where
  files := fun p => if p = "in.txt" then some ⟨"infile text", 0⟩ else none
  clock := 1

/-- C2 witness: after a first successful build from `demoFS`, a second
build is a no-op: `done`, unchanged state, zero invocations. -/
theorem builder_build_idempotent_witness :
    build demoBuilder (build demoBuilder demoFS none).2.1
        (build demoBuilder demoFS none).2.2.1 =
      ("done", (build demoBuilder demoFS none).2.1,
        (build demoBuilder demoFS none).2.2.1, 0) :=
  (builder_build_idempotent demoBuilder demoFS none (by decide)).2.1
    (by decide)

/-- C3: after a successful build (status `done`), externally overwriting
the output file's contents and rebuilding with unchanged inputs does not
skip the build: the external action runs (exactly one invocation, because
the output's current content no longer matches the recorded fingerprint)
and the output is restored to the content the action derives from the
inputs, even though the inputs did not change. -/
theorem builder_tamper_rebuilds (b : BuilderM) (fs1 : BuildFS)
    (rec1 : Option DecisionRecord) (ins : List String) (tampered : String)
    (hin : inputContents fs1 b.infilepaths = some ins)
    (houtin : b.outfilepath ∉ b.infilepaths)
    (hdone : builderStatus b fs1 rec1 = "done")
    (htam : ∀ st, fs1.files b.outfilepath = some st →
      tampered ≠ st.content) :
    (build b (writeFile fs1 b.outfilepath tampered) rec1).1 = "done" ∧
    (build b (writeFile fs1 b.outfilepath tampered) rec1).2.2.2 = 1 ∧
    ((build b (writeFile fs1 b.outfilepath tampered) rec1).2.1).files
        b.outfilepath =
      some ⟨b.act ins, (writeFile fs1 b.outfilepath tampered).clock⟩ := by
  have hd1 : decide b fs1 rec1 = false := by
    by_contra h
    rw [Bool.not_eq_false] at h
    rw [builderStatus_inputs_present hin, h] at hdone
    exact absurd (by simpa using hdone) (by decide : ¬("ready" = "done"))
  have hin2 : inputContents (writeFile fs1 b.outfilepath tampered)
      b.infilepaths = some ins := by
    rw [inputContents_writeFile fs1 b.outfilepath _ _ houtin, hin]
  cases hrec : rec1 with
  | none =>
    rw [hrec, decide_no_record hin] at hd1
    cases hd1
  | some r =>
    rw [hrec] at hd1
    cases hf : fs1.files b.outfilepath with
    | none =>
      rw [decide_output_missing hin hf] at hd1
      cases hd1
    | some st =>
      rw [decide_with_record hin hf] at hd1
      have hcond : r.inputsFp = (ins, b.action) ∧
          r.outputFp = st.content := by
        by_contra hc
        rw [if_neg hc] at hd1
        cases hd1
      have hd2 : decide b (writeFile fs1 b.outfilepath tampered)
          (some r) = true := by
        rw [decide_with_record hin2
          (writeFile_files_self fs1 b.outfilepath tampered)]
        rw [if_neg]
        intro hcc
        have h2 : r.outputFp = tampered := hcc.2
        exact htam st hf (h2 ▸ hcond.2)
      rw [build_run hin2 hd2]
      exact ⟨rfl, rfl, writeFile_files_self _ _ _⟩

/-- The post-build filesystem of `test_builder_md5decision` step 3:
`in.txt` holds `infile text2`, `out.txt` holds the matching built
content. -/
def demoFS3 : BuildFS where
  files := fun p =>
    if p = "in.txt" then some ⟨"infile text2", 0⟩
    else if p = "out.txt" then some ⟨"infile text2", 1⟩
    else none
  clock := 2

/-- The decision record after that successful build. -/
def demoRec3 : Option DecisionRecord :=
  some ⟨(["infile text2"], "cp in.txt out.txt"), "infile text2"⟩

/-- C3 witness: overwriting `out.txt` with `outfile` and rebuilding runs
the action once and restores `out.txt` to `infile text2`. -/
theorem builder_tamper_rebuilds_witness :
    (build demoBuilder (writeFile demoFS3 demoBuilder.outfilepath "outfile")
        demoRec3).1 = "done" ∧
    (build demoBuilder (writeFile demoFS3 demoBuilder.outfilepath "outfile")
        demoRec3).2.2.2 = 1 ∧
    ((build demoBuilder (writeFile demoFS3 demoBuilder.outfilepath "outfile")
        demoRec3).2.1).files demoBuilder.outfilepath =
      some ⟨demoBuilder.act ["infile text2"],
        (writeFile demoFS3 demoBuilder.outfilepath "outfile").clock⟩ :=
  builder_tamper_rebuilds demoBuilder demoFS3 demoRec3 ["infile text2"]
    "outfile" (by decide) (by decide) (by decide)
    (by
      intro st h
      rw [show demoFS3.files demoBuilder.outfilepath =
        some ⟨"infile text2", 1⟩ from rfl] at h
      cases h
      decide)

/-! ## Shell-free command-argument construction

Modelled from the spec: `Builder.run_cmd_args` lives in the absent
`builders/builder.py`; spec §4.1 states that the action template's
placeholders are substituted and the result is tokenized into an argument
vector *without* invoking a shell, so a flag-like filename stays one
literal argument, and `test_run_cmd_args` pins the concrete behavior: the
template's own literal text is split on whitespace (template tokens), a
placeholder's substituted path value lands inside a single token — glued
to any literal text of that token, as in `-outputfile={...}` — and a
substituted value's leading dashes are stripped (`-unsafe` arrives as the
literal `unsafe`). -/

/-- One whitespace-delimited token of an action template: either pure
literal text, or a literal part glued to a placeholder for the builder's
input path or output path. -/
inductive ActToken where
  | lit (s : String)
  | inref (litPart : String)
  | outref (litPart : String)
deriving DecidableEq, Repr

/-- Modelled from the spec/test: sanitization of a substituted path value —
leading dashes are stripped, so the value can never be read as a flag. -/
def sanitizePathArg (s : String) : String :=
  ⟨s.data.dropWhile (fun ch => ch = '-')⟩

/-- Modelled from the spec: `Builder.run_cmd_args` — render each template
token to exactly one argument-vector entry, substituting the (sanitized)
path values into their tokens; no shell is involved and no re-splitting of
substituted values happens. -/
def run_cmd_args (tokens : List ActToken) (infile outfile : String) :
    List String :=
  tokens.map (fun tok =>
    match tok with
    | .lit s => s
    | .inref litPart => litPart ++ sanitizePathArg infile
    | .outref litPart => litPart ++ sanitizePathArg outfile)

/-- C7: when a builder's action template is instantiated with an input
path literally named `-unsafe`, the resulting argument vector has exactly
one entry per template token (the path is never split), and the token
holding the input path equals its literal part glued to the configured
literal `unsafe` — for a bare placeholder, the single argument token
`unsafe`, whose first character is not a dash and so cannot be read as a
flag by the invoked process. -/
theorem run_cmd_args_unsafe_single_token (tokens : List ActToken)
    (outfile : String) (k : Nat) (litPart : String)
    (htok : tokens[k]? = some (.inref litPart)) :
    (run_cmd_args tokens "-unsafe" outfile).length = tokens.length ∧
    (run_cmd_args tokens "-unsafe" outfile)[k]? =
      some (litPart ++ "unsafe") ∧
    (litPart = "" →
      (run_cmd_args tokens "-unsafe" outfile)[k]? = some "unsafe" ∧
      "unsafe".data.head? ≠ some '-') := by
  have hsan : sanitizePathArg "-unsafe" = "unsafe" := by decide
  refine ⟨by rw [run_cmd_args, List.length_map], ?_, ?_⟩
  · rw [run_cmd_args, List.getElem?_map, htok]
    rw [hsan]
    rfl
  · intro hlit
    subst hlit
    refine ⟨?_, by decide⟩
    rw [run_cmd_args, List.getElem?_map, htok]
    rw [hsan]
    rfl

/-- The action template of `test_run_cmd_args` step 2:
`test -safe {builder.infilepaths} and -outputfile={builder.outfilepath}`. -/
def demoAction : List ActToken :=
  [.lit "test", .lit "-safe", .inref "", .lit "and", .outref "-outputfile="]

/-- C7 witness: instantiating the test's template with the input `-unsafe`
and output `out.pdf` yields the test's expected argument vector, and the
input lands as the single token `unsafe` at index 2. -/
theorem run_cmd_args_unsafe_witness :
    run_cmd_args demoAction "-unsafe" "out.pdf" =
      ["test", "-safe", "unsafe", "and", "-outputfile=out.pdf"] ∧
    (run_cmd_args demoAction "-unsafe" "out.pdf").length =
      demoAction.length ∧
    (run_cmd_args demoAction "-unsafe" "out.pdf")[2]? =
      some ("" ++ "unsafe") ∧
    ("" = "" →
      (run_cmd_args demoAction "-unsafe" "out.pdf")[2]? = some "unsafe" ∧
      "unsafe".data.head? ≠ some '-') :=
  ⟨by decide,
   run_cmd_args_unsafe_single_token demoAction "out.pdf" 2 "" rfl⟩

end Disseminate
